import Mathlib

/-!
Verification model of `qnet/misc/kerr_model_matrices.py`.

The Python module extracts coefficient matrices from symbolic operator
equations of motion and builds drift/diffusion callables for a semiclassical
SDE.  We embed it shallowly:

* machine complex numbers become exact complex rationals (`CC`);
* sympy scalar coefficients become formal linear combinations of a numeric
  part and symbolic atoms (`Scalar`); the numeric coercion `complex(c)` of
  the Python code succeeds exactly on scalars with no symbolic part;
* the operator-expression tree of the external algebra engine becomes the
  inductive `Operator`; the engine itself (expansion, simplification,
  Heisenberg equations of motion, coherent-input injection) is out of scope
  for the module under study and is abstracted as an `Engine` record of
  opaque pure functions, exactly the interface the Python code consumes;
* `defaultdict(float)` coefficient maps become association lists with a
  zero default;
* numpy arrays of complex numbers become lists / lists of lists of `CC`.
-/

namespace QNET

/-- Complex numbers with rational components, the exact model of the
machine complex scalars used by the Python module. -/
structure CC where
  re : ℚ
  im : ℚ
deriving DecidableEq, Repr

namespace CC

def zero : CC := ⟨0, 0⟩

def one : CC := ⟨1, 0⟩

def add (x y : CC) : CC := ⟨x.re + y.re, x.im + y.im⟩

def neg (x : CC) : CC := ⟨-x.re, -x.im⟩

def sub (x y : CC) : CC := ⟨x.re - y.re, x.im - y.im⟩

def mul (x y : CC) : CC :=
  ⟨x.re * y.re - x.im * y.im, x.re * y.im + x.im * y.re⟩

/-- Complex conjugation, modelling `numpy.conjugate`. -/
def conj (x : CC) : CC := ⟨x.re, -x.im⟩

/-- Squared magnitude; `abs(z) < eps` in Python is the exact condition
`0 < eps ∧ normSq z < eps^2`. -/
def normSq (x : CC) : ℚ := x.re * x.re + x.im * x.im

instance : Zero CC := ⟨zero⟩
instance : One CC := ⟨one⟩
instance : Add CC := ⟨add⟩
instance : Neg CC := ⟨neg⟩
instance : Sub CC := ⟨sub⟩
instance : Mul CC := ⟨mul⟩

/-- The constant `2j` of the drift formula. -/
def twoI : CC := ⟨0, 2⟩

/-- The constant `1/(-2j) = i/2` used to divide Kerr coefficients. -/
def invNeg2I : CC := ⟨0, 1/2⟩

/-- The constant `1/2` used for `B/2`. -/
def half : CC := ⟨1/2, 0⟩

theorem add_assoc_cc (x y z : CC) : (x + y) + z = x + (y + z) := by
  show add (add x y) z = add x (add y z)
  simp [add, add_assoc]

theorem zero_add_cc (x : CC) : (0 : CC) + x = x := by
  show add zero x = x
  simp [add, zero]

theorem add_zero_cc (x : CC) : x + (0 : CC) = x := by
  show add x zero = x
  simp [add, zero]

theorem zero_mul_cc (x : CC) : (0 : CC) * x = 0 := by
  show mul zero x = zero
  simp [mul, zero]

end CC

/-- A scalar coefficient: a numeric part together with a formal linear
combination of symbolic atoms.  Models the sympy scalars the Python code
manipulates; `syms = []` is the purely numeric case, in which the Python
coercion `complex(c)` succeeds. -/
structure Scalar where
  num : CC
  syms : List (String × CC)
deriving DecidableEq, Repr

namespace Scalar

def zero : Scalar := ⟨0, []⟩

def one : Scalar := ⟨1, []⟩

def ofCC (z : CC) : Scalar := ⟨z, []⟩

/-- A bare symbolic parameter, not coercible to a number. -/
def ofSym (n : String) : Scalar := ⟨0, [(n, 1)]⟩

/-- Formal addition of scalars: numeric parts add, symbolic parts append. -/
def add (a b : Scalar) : Scalar := ⟨a.num + b.num, a.syms ++ b.syms⟩

instance : Zero Scalar := ⟨zero⟩
instance : Add Scalar := ⟨add⟩

/-- Multiply a scalar by a numeric constant (used for the division of the
Kerr coefficients by `-2j` and for `B/2`). -/
def mulCC (z : CC) (a : Scalar) : Scalar :=
  ⟨a.num * z, a.syms.map (fun p => (p.1, p.2 * z))⟩

/-- Division by `-2j`, as in the Kerr extraction line of the Python code. -/
def divNeg2I (a : Scalar) : Scalar := mulCC CC.invNeg2I a

/-- The Python coercion `complex(c)`: succeeds exactly when the scalar has
no symbolic part. -/
def tryComplex (a : Scalar) : Option CC :=
  if a.syms = [] then some a.num else none

theorem add_assoc_s (a b c : Scalar) : (a + b) + c = a + (b + c) := by
  show add (add a b) c = add a (add b c)
  simp [add, CC.add_assoc_cc, List.append_assoc]

theorem zero_add_s (a : Scalar) : (0 : Scalar) + a = a := by
  show add zero a = a
  simp [add, zero, CC.zero_add_cc]

theorem add_zero_s (a : Scalar) : a + (0 : Scalar) = a := by
  show add a zero = a
  simp [add, zero, CC.add_zero_cc]

theorem divNeg2I_zero : divNeg2I (0 : Scalar) = 0 := by
  show divNeg2I zero = zero
  simp [divNeg2I, mulCC, zero, CC.zero_mul_cc]

end Scalar

/-- Operator expressions, the expression-tree interface of the external
algebra engine as consumed by `kerr_model_matrices.py`:
sum nodes (`OperatorPlus`), scaled terms (`ScalarTimesOperator`),
annihilation/creation operators (`Destroy`/`Create`, modes named by `Nat`),
operator products (`OperatorTimes`, binary and left-associated),
the identity (`IdentityOperator`), the zero operator (`ZeroOperator`), and
named symbols (`OperatorSymbol` for noises and dynamic inputs).

A sum node is binary here; since the engine flattens sums on construction,
the operand tuple of a Python `OperatorPlus` is the flattened spine of
`plus` nodes read off by `operandsOf`. -/
inductive Operator where
  | plus (a b : Operator)
  | scalarTimes (coeff : Scalar) (term : Operator)
  | destroy (mode : Nat)
  | create (mode : Nat)
  | mulOp (a b : Operator)
  | identityOperator
  | zeroOperator
  | operatorSymbol (name : String)
deriving DecidableEq, Repr

namespace Operator

/-- The Kerr term `Create(skk) * Destroy(skk) * Destroy(sjj)` looked up by
`model_matrices` (Python `*` is left-associative). -/
def kerrTerm (skk sjj : Nat) : Operator :=
  mulOp (mulOp (create skk) (destroy skk)) (destroy sjj)

end Operator

/-- The split of `_coeff_term`: a `ScalarTimesOperator` yields its
coefficient and term, anything else is a bare term with coefficient 1. -/
def coeffTermOf (expr : Operator) : Scalar × Operator :=
  match expr with
  | .scalarTimes c t => (c, t)
  | e => (Scalar.one, e)

/-- The addend list of an expression: the operands of a top-level sum,
otherwise the expression itself as a single addend. -/
def operandsOf : Operator → List Operator
  | .plus a b => operandsOf a ++ operandsOf b
  | e => [e]

/-- The truncation test of `get_coeffs`: drop an addend exactly when its
coefficient coerces to a number whose magnitude is strictly below
`epsilon`.  `abs(complex(c)) < epsilon` holds iff `0 < epsilon` and
`normSq < epsilon^2`, which is exact over the rationals. -/
def dropSmall (epsilon : ℚ) (c : Scalar) : Bool :=
  match c.tryComplex with
  | some z => decide (0 < epsilon) && decide (z.normSq < epsilon * epsilon)
  | none => false

/-- Coefficient maps: association lists from terms to scalars, with a zero
default, modelling `defaultdict(float)`. -/
abbrev CoeffMap := List (Operator × Scalar)

namespace CoeffMap

/-- Lookup with the defaultdict zero default. -/
def get (m : CoeffMap) (t : Operator) : Scalar :=
  match m with
  | [] => 0
  | (k, v) :: rest => if k = t then v else get rest t

/-- Whether a term is an explicit key of the map. -/
def hasKey (m : CoeffMap) (t : Operator) : Bool :=
  match m with
  | [] => false
  | (k, _) :: rest => if k = t then true else hasKey rest t

/-- The in-place accumulation `ret[t] += c` of the Python loop. -/
def addTo (m : CoeffMap) (t : Operator) (c : Scalar) : CoeffMap :=
  match m with
  | [] => [(t, 0 + c)]
  | (k, v) :: rest =>
    if k = t then (k, v + c) :: rest else (k, v) :: addTo rest t c

end CoeffMap

/-- One iteration of the `get_coeffs` loop: split the addend, skip it when
its numeric coefficient is below `epsilon`, otherwise accumulate. -/
def gcStep (epsilon : ℚ) (ret : CoeffMap) (e : Operator) : CoeffMap :=
  if dropSmall epsilon (coeffTermOf e).1 then ret
  else ret.addTo (coeffTermOf e).2 (coeffTermOf e).1

/-- The body of `get_coeffs`: fold the addends into a coefficient map,
dropping small numeric coefficients.  The `expand` flag of the Python
function delegates to the external engine and is `False` at every call
site inside the module, so the embedding takes the already-decomposed
expression.  The Python `try/except` around the coercion never escapes to
the caller, so the function is total, as here. -/
def get_coeffs (expr : Operator) (epsilon : ℚ) : CoeffMap :=
  (operandsOf expr).foldl (gcStep epsilon) []

/-- The sum of the coefficients of the kept addends whose term is `t`:
the reference value of `get_coeffs ... |>.get t`. -/
def keptSum (epsilon : ℚ) (t : Operator) : List Operator → Scalar
  | [] => 0
  | e :: rest =>
    if dropSmall epsilon (coeffTermOf e).1 = false ∧ (coeffTermOf e).2 = t then
      (coeffTermOf e).1 + keptSum epsilon t rest
    else keptSum epsilon t rest

/-- Whether some kept addend of the list has term `t`. -/
def keptHas (epsilon : ℚ) (t : Operator) : List Operator → Bool
  | [] => false
  | e :: rest =>
    if dropSmall epsilon (coeffTermOf e).1 = false ∧ (coeffTermOf e).2 = t then true
    else keptHas epsilon t rest

namespace CoeffMap

theorem get_addTo_self (m : CoeffMap) (t : Operator) (c : Scalar) :
    (m.addTo t c).get t = m.get t + c := by
  induction m with
  | nil => simp [addTo, get]
  | cons p rest ih =>
    by_cases h : p.1 = t
    · simp [addTo, get, h]
    · simp [addTo, get, h, ih]

theorem get_addTo_ne (m : CoeffMap) (t u : Operator) (c : Scalar)
    (h : t ≠ u) : (m.addTo t c).get u = m.get u := by
  induction m with
  | nil => simp [addTo, get, h]
  | cons p rest ih =>
    by_cases hp : p.1 = t
    · simp [addTo, get, hp, h, ih]
    · simp [addTo, get, hp, h, ih]

theorem hasKey_addTo (m : CoeffMap) (t u : Operator) (c : Scalar) :
    (m.addTo t c).hasKey u = (m.hasKey u || decide (t = u)) := by
  induction m with
  | nil => simp [addTo, hasKey]
  | cons p rest ih =>
    by_cases hp : p.1 = t
    · subst hp
      by_cases hu : p.1 = u <;> simp [addTo, hasKey, hu]
    · by_cases hu : p.1 = u
      · have hut : ¬ u = t := fun h => hp (hu.trans h)
        simp [addTo, hasKey, hp, hu, hut, ih]
      · simp [addTo, hasKey, hp, hu, ih]

theorem get_of_hasKey_false (m : CoeffMap) (t : Operator)
    (h : m.hasKey t = false) : m.get t = 0 := by
  induction m with
  | nil => simp [get]
  | cons p rest ih =>
    by_cases hp : p.1 = t
    · simp [hasKey, hp] at h
    · simp [hasKey, hp] at h
      simp [get, hp, ih h]

end CoeffMap

theorem foldl_gcStep_get (epsilon : ℚ) (t : Operator) (ops : List Operator) :
    ∀ m : CoeffMap, (ops.foldl (gcStep epsilon) m).get t =
      m.get t + keptSum epsilon t ops := by
  induction ops with
  | nil => intro m; simp [keptSum, Scalar.add_zero_s]
  | cons e rest ih =>
    intro m
    simp only [List.foldl_cons, ih]
    by_cases hd : dropSmall epsilon (coeffTermOf e).1 = false
    · by_cases ht : (coeffTermOf e).2 = t
      · rw [keptSum]
        simp only [hd, ht, and_self, if_true]
        have hstep : gcStep epsilon m e = m.addTo t (coeffTermOf e).1 := by
          simp [gcStep, hd, ht]
        rw [hstep, CoeffMap.get_addTo_self, Scalar.add_assoc_s]
      · rw [keptSum]
        simp only [hd, ht, and_false, if_false]
        have hstep : gcStep epsilon m e = m.addTo (coeffTermOf e).2 (coeffTermOf e).1 := by
          simp [gcStep, hd]
        rw [hstep, CoeffMap.get_addTo_ne _ _ _ _ ht]
    · rw [keptSum]
      simp only [hd, false_and, if_false]
      have hstep : gcStep epsilon m e = m := by
        simp only [Bool.not_eq_false] at hd
        simp [gcStep, hd]
      rw [hstep]
      simp only [Bool.not_eq_false] at hd
      simp [hd]

theorem foldl_gcStep_hasKey (epsilon : ℚ) (t : Operator) (ops : List Operator) :
    ∀ m : CoeffMap, (ops.foldl (gcStep epsilon) m).hasKey t =
      (m.hasKey t || keptHas epsilon t ops) := by
  induction ops with
  | nil => intro m; simp [keptHas]
  | cons e rest ih =>
    intro m
    simp only [List.foldl_cons, ih]
    by_cases hd : dropSmall epsilon (coeffTermOf e).1 = false
    · by_cases ht : (coeffTermOf e).2 = t
      · rw [keptHas]
        simp only [hd, ht, and_self, if_true]
        have hstep : gcStep epsilon m e = m.addTo t (coeffTermOf e).1 := by
          simp [gcStep, hd, ht]
        rw [hstep, CoeffMap.hasKey_addTo]
        simp
      · rw [keptHas]
        simp only [hd, ht, and_false, if_false]
        have hstep : gcStep epsilon m e = m.addTo (coeffTermOf e).2 (coeffTermOf e).1 := by
          simp [gcStep, hd]
        rw [hstep, CoeffMap.hasKey_addTo]
        simp [ht]
    · rw [keptHas]
      have hstep : gcStep epsilon m e = m := by
        simp only [Bool.not_eq_false] at hd
        simp [gcStep, hd]
      rw [hstep]
      simp only [Bool.not_eq_false] at hd
      simp [hd]

theorem get_coeffs_get (expr : Operator) (epsilon : ℚ) (t : Operator) :
    (get_coeffs expr epsilon).get t = keptSum epsilon t (operandsOf expr) := by
  rw [get_coeffs, foldl_gcStep_get]
  simp [CoeffMap.get, Scalar.zero_add_s]

theorem get_coeffs_hasKey (expr : Operator) (epsilon : ℚ) (t : Operator) :
    (get_coeffs expr epsilon).hasKey t = keptHas epsilon t (operandsOf expr) := by
  rw [get_coeffs, foldl_gcStep_hasKey]
  simp [CoeffMap.hasKey]

/-- With the default `epsilon = 0` no addend is ever dropped: the Python
test compares an absolute value against zero strictly. -/
theorem dropSmall_zero (c : Scalar) : dropSmall 0 c = false := by
  unfold dropSmall
  cases c.tryComplex with
  | none => rfl
  | some z => simp

/-- An SLH model as consumed by `model_matrices`: the port count `cdim`,
the local Hilbert-space factors (modes named by `Nat`), the scattering
matrix `S` and the column of the coupling vector `L`. -/
structure SLH where
  cdim : Nat
  spaceFactors : List Nat
  S : List (List Scalar)
  L : List Operator

/-- The external symbolic algebra engine, out of scope for the module
under study and abstracted as opaque pure functions:
`coherent_input slh drives` is the Python
`slh.coherent_input(*drives).expand().simplify_scalar()`;
`heisenberg_eom slh obs noises` is
`slh.symbolic_heisenberg_eom(obs, noises=noises).expand().simplify_scalar()`;
`output_fields slh noises` is the expanded, scalar-simplified
`slh.S * Matrix([noises]).T + slh.L` used when `return_eoms` is set. -/
structure Engine where
  coherent_input : SLH → List Operator → SLH
  heisenberg_eom : SLH → Operator → List Operator → Operator
  output_fields : SLH → List Operator → List Operator

/-- Insertion step of the sort applied to the mode list. -/
def insertNat (x : Nat) : List Nat → List Nat
  | [] => [x]
  | y :: ys => if x ≤ y then x :: y :: ys else y :: insertNat x ys

/-- The Python `sorted` applied to the local factors of the space. -/
def sortNat (l : List Nat) : List Nat := l.foldr insertNat []

/-- Insertion step of the sort applied to the dynamic-input items. -/
def insertPort (x : Nat × String) :
    List (Nat × String) → List (Nat × String)
  | [] => [x]
  | y :: ys => if x.1 ≤ y.1 then x :: y :: ys else y :: insertPort x ys

/-- The Python `sorted(dynamic_input_ports.items())`, ordering the
port/name pairs by port index (dict keys are distinct). -/
def sortPorts (l : List (Nat × String)) : List (Nat × String) :=
  l.foldr insertPort []

/-- Write a value at an index of a list, leaving the list unchanged when
the index is out of range (the Python code indexes a dict-key into a
length-`cdim` list, in range for well-formed input). -/
def setAt : List Operator → Nat → Operator → List Operator
  | [], _, _ => []
  | _ :: xs, 0, v => v :: xs
  | x :: xs, n + 1, v => x :: setAt xs n v

/-- The noise placeholder of port `n`, Python `OperatorSymbol('dA/dt_{n}')`. -/
def noiseSym (n : Nat) : Operator :=
  Operator.operatorSymbol ("dA/dt_\x7b" ++ toString n ++ "\x7d")

/-- The dynamic-input placeholder named `u_name`, Python
`OperatorSymbol('u_{name}')`. -/
def inputSym (name : String) : Operator :=
  Operator.operatorSymbol ("u_\x7b" ++ name ++ "\x7d")

/-- The per-port noise placeholders, `noises` in the Python code. -/
def noisesFor (cdim : Nat) : List Operator := (List.range cdim).map noiseSym

/-- The ordered dynamic-input symbols, `inputs` in the Python code:
one symbol per named input, sorted by port index. -/
def inputsFor (dynamic_input_ports : List (Nat × String)) : List Operator :=
  (sortPorts dynamic_input_ports).map (fun p => inputSym p.2)

/-- The length-`cdim` coherent-drive list, `inputs_extended` in the Python
code: the input symbol at each named port index, the zero operator
elsewhere. -/
def inputsExtended (dynamic_input_ports : List (Nat × String)) (cdim : Nat) :
    List Operator :=
  (sortPorts dynamic_input_ports).foldl
    (fun l p => setAt l p.1 (inputSym p.2))
    (List.replicate cdim Operator.zeroOperator)

/-- The Mode Registry: the sorted local factors of the model's space. -/
def modesOf (slh : SLH) : List Nat := sortNat slh.spaceFactors

/-- The drive-injected model, `slh_input` in the Python code. -/
def slhInputOf (engine : Engine) (slh : SLH)
    (dynamic_input_ports : List (Nat × String)) : SLH :=
  engine.coherent_input slh (inputsExtended dynamic_input_ports slh.cdim)

/-- The per-mode equations of motion, `eoms` in the Python code: one
Heisenberg equation of motion of the annihilation operator per mode. -/
def eomsOf (engine : Engine) (slh : SLH)
    (dynamic_input_ports : List (Nat × String)) : List Operator :=
  (modesOf slh).map (fun s =>
    engine.heisenberg_eom (slhInputOf engine slh dynamic_input_ports)
      (Operator.destroy s) (noisesFor slh.cdim))

/-- The coefficient maps of the rows of the coupling vector `L` of the
drive-injected model.  The Python call at this point is `get_coeffs(Ljj)`
with the default `epsilon = 0`, independent of the caller's `epsilon`. -/
def lCoeffsOf (engine : Engine) (slh : SLH)
    (dynamic_input_ports : List (Nat × String)) : List CoeffMap :=
  (slhInputOf engine slh dynamic_input_ports).L.map (fun Ljj => get_coeffs Ljj 0)

/-- The result of `model_matrices`.  The record always carries the
symbolic equations of motion and the output-field expression; the Python
function returns the 9-tuple without the last two fields when
`return_eoms` is false and the 11-tuple with them when it is true. -/
structure MMResult where
  A : List (List Scalar)
  B : List (List Scalar)
  C : List (List Scalar)
  D : List (List Scalar)
  A_kerr : List (List Scalar)
  B_input : List (List Scalar)
  D_input : List (List Scalar)
  u_c : List Scalar
  U_c : List Scalar
  eoms : List Operator
  dAps : List Operator
deriving DecidableEq, Repr

/-- The assembler `model_matrices`.  Row `jj` of the mode-indexed arrays
comes from the coefficient map of the `jj`-th equation of motion; the
port-indexed arrays come from the coefficient maps of the rows of `L`
(written into zero-initialized arrays of `cdim` rows, as numpy does);
`D` is the scattering matrix of the original model directly.  The
`apply_kerr_diagonal_correction` flag is accepted and never read, as in the
Python code.  The guard `if inputs == 0` inside the `B_input` loop of the
Python code compares a list with an integer and is therefore always false,
so every `B_input` entry is written unconditionally. -/
def model_matrices (engine : Engine) (slh : SLH)
    (dynamic_input_ports : List (Nat × String))
    (apply_kerr_diagonal_correction : Bool) (epsilon : ℚ) : MMResult :=
  let modes := modesOf slh
  let ncav := modes.length
  let cdim := slh.cdim
  let noises := noisesFor cdim
  let inputs := inputsFor dynamic_input_ports
  let eoms := eomsOf engine slh dynamic_input_ports
  let modeCoeffs := eoms.map (fun e => get_coeffs e epsilon)
  let LCoeffs := lCoeffsOf engine slh dynamic_input_ports
  { A := modeCoeffs.map (fun cm => modes.map (fun skk => cm.get (.destroy skk)))
    B := modeCoeffs.map (fun cm => noises.map (fun dAkk => cm.get dAkk))
    C := (List.range cdim).map (fun jj =>
      match LCoeffs[jj]? with
      | some cm => modes.map (fun skk => cm.get (.destroy skk))
      | none => List.replicate ncav 0)
    D := slh.S
    A_kerr := (modes.zip modeCoeffs).map (fun p =>
      modes.map (fun skk => (p.2.get (Operator.kerrTerm skk p.1)).divNeg2I))
    B_input := modeCoeffs.map (fun cm => inputs.map (fun u => cm.get u))
    D_input := (List.range cdim).map (fun jj =>
      match LCoeffs[jj]? with
      | some cm => inputs.map (fun u => cm.get u)
      | none => List.replicate inputs.length 0)
    u_c := modeCoeffs.map (fun cm => cm.get .identityOperator)
    U_c := (List.range cdim).map (fun jj =>
      match LCoeffs[jj]? with
      | some cm => cm.get .identityOperator
      | none => 0)
    eoms := eoms
    dAps := engine.output_fields (slhInputOf engine slh dynamic_input_ports) noises }

/-- Numeric complex vectors, the states and drives of the SDE. -/
abbrev CVec := List CC

/-- Numeric complex matrices. -/
abbrev CMat := List (List CC)

/-- Dot product of two complex vectors. -/
def dotC (v w : CVec) : CC := (List.zipWith CC.mul v w).foldl CC.add 0

/-- Matrix-vector product, numpy `M.dot(v)`. -/
def matVec (M : CMat) (v : CVec) : CVec := M.map (fun row => dotC row v)

/-- Elementwise vector sum, numpy `+`. -/
def vAdd (v w : CVec) : CVec := List.zipWith CC.add v w

/-- Elementwise vector difference, numpy `-`. -/
def vSub (v w : CVec) : CVec := List.zipWith CC.sub v w

/-- Elementwise (Hadamard) vector product, numpy `*` on two vectors. -/
def vMulEl (v w : CVec) : CVec := List.zipWith CC.mul v w

/-- Elementwise conjugation, numpy `v.conjugate()`. -/
def vConj (v : CVec) : CVec := v.map CC.conj

/-- Scalar-vector product, numpy `z * v`. -/
def sMulV (z : CC) (v : CVec) : CVec := v.map (fun x => CC.mul z x)

/-- Halve every entry of a matrix, numpy `B/2.`. -/
def halfOf (M : CMat) : CMat :=
  M.map (fun row => row.map (fun z => CC.mul z CC.half))

/-- The numeric model-matrix set fed to `prepare_sde` (the first nine
elements of the `model_matrices` output after numeric coercion). -/
structure NumericModelMatrices where
  A : CMat
  B : CMat
  C : CMat
  D : CMat
  A_kerr : CMat
  B_input : CMat
  D_input : CMat
  u_c : CVec
  U_c : CVec

/-- The drift closure `f` built by `prepare_sde`, transcribing
`A.dot(a) - 2j * (A_kerr.dot(a.conjugate() * a)) * a + u_c
 + B_input.dot(input_fn(t))` with numpy's products: `dot` is the
matrix-vector product and `*` the elementwise one. -/
def prepare_sde_f (mm : NumericModelMatrices) (input_fn : ℚ → CVec)
    (a : CVec) (t : ℚ) : CVec :=
  vAdd
    (vAdd
      (vSub (matVec mm.A a)
        (vMulEl (sMulV CC.twoI (matVec mm.A_kerr (vMulEl (vConj a) a))) a))
      mm.u_c)
    (matVec mm.B_input (input_fn t))

/-- The diffusion closure `g` built by `prepare_sde`: it returns the
precomputed `B_over_2` and ignores both arguments. -/
def prepare_sde_g (mm : NumericModelMatrices) (a : CVec) (t : ℚ) : CMat :=
  halfOf mm.B

/-- The pair of SDE closures built by `prepare_sde`. -/
def prepare_sde (mm : NumericModelMatrices) (input_fn : ℚ → CVec) :
    (CVec → ℚ → CVec) × (CVec → ℚ → CMat) :=
  (prepare_sde_f mm input_fn, prepare_sde_g mm)

/-- Modelled from the spec sentence for the drift: entry `i` of the drift
is `(A·a)_i − 2i·(A_kerr·(conj(a) ⊙ a))_i · a_i + (u_c)_i +
(B_input·input_fn(t))_i`, written index-wise with the elementwise Kerr
product spelled out. -/
def driftSpec (mm : NumericModelMatrices) (input_fn : ℚ → CVec)
    (a : CVec) (t : ℚ) : CVec :=
  (List.range a.length).map (fun i =>
    CC.add
      (CC.add
        (CC.sub (dotC (mm.A.getD i []) a)
          (CC.mul
            (CC.mul CC.twoI
              (dotC (mm.A_kerr.getD i []) (vMulEl (vConj a) a)))
            (a.getD i 0)))
        (mm.u_c.getD i 0))
      (dotC (mm.B_input.getD i []) (input_fn t)))

theorem length_insertPort (x : Nat × String) (l : List (Nat × String)) :
    (insertPort x l).length = l.length + 1 := by
  induction l with
  | nil => rfl
  | cons y ys ih =>
    by_cases h : x.1 ≤ y.1 <;> simp [insertPort, h, ih]

theorem length_sortPorts (l : List (Nat × String)) :
    (sortPorts l).length = l.length := by
  induction l with
  | nil => rfl
  | cons y ys ih =>
    show (insertPort y (sortPorts ys)).length = ys.length + 1
    rw [length_insertPort, ih]

theorem length_inputsFor (dip : List (Nat × String)) :
    (inputsFor dip).length = dip.length := by
  simp [inputsFor, length_sortPorts]

theorem length_eomsOf (engine : Engine) (slh : SLH)
    (dip : List (Nat × String)) :
    (eomsOf engine slh dip).length = (modesOf slh).length := by
  simp [eomsOf]

theorem map_eq_replicate_of_const {α β : Type} (l : List α) (f : α → β)
    (b : β) (h : ∀ x ∈ l, f x = b) :
    l.map f = List.replicate l.length b := by
  induction l with
  | nil => rfl
  | cons x xs ih =>
    simp only [List.map_cons, List.length_cons, List.replicate_succ]
    rw [h x (by simp), ih (fun y hy => h y (by simp [hy]))]

/-- C6: the diffusion callable returned by `prepare_sde` is constant: it
returns the same fixed matrix `B / 2` for every state and time. -/
theorem prepare_sde_g_constant (mm : NumericModelMatrices)
    (input_fn : ℚ → CVec) (a : CVec) (t : ℚ) (a2 : CVec) (t2 : ℚ) :
    (prepare_sde mm input_fn).2 a t = (prepare_sde mm input_fn).2 a2 t2
    ∧ (prepare_sde mm input_fn).2 a t = halfOf mm.B :=
  ⟨rfl, rfl⟩

/-- C7: the result of `model_matrices` is independent of the
`apply_kerr_diagonal_correction` argument: the flag is accepted and never
read, so all nine matrices and the trailing equation-of-motion and
output-field elements coincide for the two flag values (the record carries
both the 9-tuple fields and the trailing elements of the 11-tuple form, so
this covers every `return_eoms` value); in particular no detuning
correction is folded into the diagonal of `A`. -/
theorem model_matrices_flag_independent (engine : Engine) (slh : SLH)
    (dip : List (Nat × String)) (epsilon : ℚ) :
    model_matrices engine slh dip true epsilon =
      model_matrices engine slh dip false epsilon := rfl

/-- C10: the caller's `epsilon` never reaches the output-coupling
extraction: `C`, `U_c` and `D_input` are built from coefficient maps of
the rows of `L` computed with the default `epsilon = 0`, so they agree
with the `epsilon = 0` result for every `epsilon`. -/
theorem model_matrices_output_eps_independent (engine : Engine) (slh : SLH)
    (dip : List (Nat × String)) (akdc : Bool) (epsilon : ℚ) :
    (model_matrices engine slh dip akdc epsilon).C =
        (model_matrices engine slh dip akdc 0).C
    ∧ (model_matrices engine slh dip akdc epsilon).U_c =
        (model_matrices engine slh dip akdc 0).U_c
    ∧ (model_matrices engine slh dip akdc epsilon).D_input =
        (model_matrices engine slh dip akdc 0).D_input :=
  ⟨rfl, rfl, rfl⟩

/-- C9: the returned arrays have the stated shapes, with
`ncav` the number of modes, `cdim` the port count and `ninputs` the
number of dynamic-input entries: `A` and `A_kerr` are `ncav × ncav`,
`B` is `ncav × cdim`, `C` is `cdim × ncav`, `B_input` is
`ncav × ninputs`, `D_input` is `cdim × ninputs`, `u_c` has length `ncav`
and `U_c` has length `cdim`. -/
theorem model_matrices_shapes (engine : Engine) (slh : SLH)
    (dip : List (Nat × String)) (akdc : Bool) (epsilon : ℚ) :
    (model_matrices engine slh dip akdc epsilon).A.map List.length =
        List.replicate (modesOf slh).length (modesOf slh).length
    ∧ (model_matrices engine slh dip akdc epsilon).B.map List.length =
        List.replicate (modesOf slh).length slh.cdim
    ∧ (model_matrices engine slh dip akdc epsilon).C.map List.length =
        List.replicate slh.cdim (modesOf slh).length
    ∧ (model_matrices engine slh dip akdc epsilon).A_kerr.map List.length =
        List.replicate (modesOf slh).length (modesOf slh).length
    ∧ (model_matrices engine slh dip akdc epsilon).B_input.map List.length =
        List.replicate (modesOf slh).length dip.length
    ∧ (model_matrices engine slh dip akdc epsilon).D_input.map List.length =
        List.replicate slh.cdim dip.length
    ∧ (model_matrices engine slh dip akdc epsilon).u_c.length =
        (modesOf slh).length
    ∧ (model_matrices engine slh dip akdc epsilon).U_c.length = slh.cdim := by
  refine ⟨?_, ?_, ?_, ?_, ?_, ?_, ?_, ?_⟩
  · simp only [model_matrices]
    rw [List.map_map]
    rw [map_eq_replicate_of_const _ _ (modesOf slh).length (by simp)]
    simp [length_eomsOf]
  · simp only [model_matrices]
    rw [List.map_map]
    rw [map_eq_replicate_of_const _ _ slh.cdim (by simp [noisesFor])]
    simp [length_eomsOf]
  · simp only [model_matrices]
    rw [List.map_map]
    rw [map_eq_replicate_of_const _ _ (modesOf slh).length ?_]
    · simp
    · intro jj _
      cases hL : (lCoeffsOf engine slh dip)[jj]? <;> simp [hL]
  · simp only [model_matrices]
    rw [List.map_map]
    rw [map_eq_replicate_of_const _ _ (modesOf slh).length (by simp)]
    simp [length_eomsOf]
  · simp only [model_matrices]
    rw [List.map_map]
    rw [map_eq_replicate_of_const _ _ dip.length (by simp [length_inputsFor])]
    simp [length_eomsOf]
  · simp only [model_matrices]
    rw [List.map_map]
    rw [map_eq_replicate_of_const _ _ dip.length ?_]
    · simp
    · intro jj _
      cases hL : (lCoeffsOf engine slh dip)[jj]? <;>
        simp [hL, length_inputsFor]
  · simp only [model_matrices]
    simp [length_eomsOf]
  · simp only [model_matrices]
    simp

/-- C2: `A_kerr[jj, kk]` is the coefficient, in mode `jj`'s equation of
motion, of the term `Create(mode kk) * Destroy(mode kk) * Destroy(mode jj)`,
divided by `-2i`; when that term is absent from the coefficient map the
entry is zero. -/
theorem model_matrices_A_kerr_entry (engine : Engine) (slh : SLH)
    (dip : List (Nat × String)) (akdc : Bool) (epsilon : ℚ)
    (jj kk : Nat) (hj : jj < (modesOf slh).length)
    (hk : kk < (modesOf slh).length) :
    ((model_matrices engine slh dip akdc epsilon).A_kerr.getD jj []).getD kk 0 =
      ((get_coeffs ((eomsOf engine slh dip).getD jj .zeroOperator) epsilon).get
        (Operator.kerrTerm ((modesOf slh).getD kk 0)
          ((modesOf slh).getD jj 0))).divNeg2I
    ∧ ((get_coeffs ((eomsOf engine slh dip).getD jj .zeroOperator)
          epsilon).hasKey
        (Operator.kerrTerm ((modesOf slh).getD kk 0)
          ((modesOf slh).getD jj 0)) = false →
      ((model_matrices engine slh dip akdc epsilon).A_kerr.getD jj []).getD
        kk 0 = 0) := by
  have hje : jj < (eomsOf engine slh dip).length := by
    rw [length_eomsOf]; exact hj
  have hbig : jj <
      (model_matrices engine slh dip akdc epsilon).A_kerr.length := by
    simp only [model_matrices]
    simp [length_eomsOf, hj]
  have main : ((model_matrices engine slh dip akdc
      epsilon).A_kerr.getD jj []).getD kk 0 =
      ((get_coeffs ((eomsOf engine slh dip).getD jj .zeroOperator)
        epsilon).get
        (Operator.kerrTerm ((modesOf slh).getD kk 0)
          ((modesOf slh).getD jj 0))).divNeg2I := by
    rw [List.getD_eq_getElem _ _ hbig]
    simp only [model_matrices]
    simp [List.getElem_map, List.getElem_zip, List.getD_eq_getElem, hk, hj,
      hje, length_eomsOf]
  refine ⟨main, fun habs => ?_⟩
  rw [main, CoeffMap.get_of_hasKey_false _ _ habs, Scalar.divNeg2I_zero]

/-- C8: `B_input[row, col]` is the coefficient of the `col`-th
dynamic-input symbol in mode `row`'s coefficient map (the guard
`inputs == 0` in the Python loop compares a list with an integer and is
always false, so the entries are written whenever the registry provides a
column); when the registry is empty `B_input` has `ncav` rows of zero
columns and no entries are written. -/
theorem model_matrices_B_input_entry (engine : Engine) (slh : SLH)
    (dip : List (Nat × String)) (akdc : Bool) (epsilon : ℚ) :
    (∀ row col, row < (modesOf slh).length → col < dip.length →
      ((model_matrices engine slh dip akdc epsilon).B_input.getD row
        []).getD col 0 =
        (get_coeffs ((eomsOf engine slh dip).getD row .zeroOperator)
          epsilon).get ((inputsFor dip).getD col .zeroOperator))
    ∧ (dip = [] →
      (model_matrices engine slh dip akdc epsilon).B_input.map List.length =
        List.replicate (modesOf slh).length 0) := by
  constructor
  · intro row col hr hc
    have hre : row < (eomsOf engine slh dip).length := by
      rw [length_eomsOf]; exact hr
    have hci : col < (inputsFor dip).length := by
      rw [length_inputsFor]; exact hc
    have hbig : row <
        (model_matrices engine slh dip akdc epsilon).B_input.length := by
      simp only [model_matrices]
      simp [length_eomsOf, hr]
    rw [List.getD_eq_getElem _ _ hbig]
    simp only [model_matrices]
    simp [List.getElem_map, List.getD_eq_getElem, hre, hci, length_eomsOf,
      length_inputsFor, hr, hc]
  · intro hnil
    subst hnil
    simp only [model_matrices]
    rw [List.map_map]
    rw [map_eq_replicate_of_const _ _ 0 (by simp [inputsFor, sortPorts])]
    simp [length_eomsOf]

/-- C1: the drift callable returned by `prepare_sde` computes
`A·a − 2i·(A_kerr·(conj(a) ⊙ a)) ⊙ a + u_c + B_input·input_fn(t)`,
with matrix-vector products for `A`, `A_kerr` and `B_input` and an
elementwise product — not a matrix product — for the final multiplication
of the Kerr term by the state. -/
theorem prepare_sde_drift_formula (mm : NumericModelMatrices)
    (input_fn : ℚ → CVec) (a : CVec) (t : ℚ)
    (hA : mm.A.length = a.length) (hK : mm.A_kerr.length = a.length)
    (hu : mm.u_c.length = a.length) (hB : mm.B_input.length = a.length) :
    (prepare_sde mm input_fn).1 a t = driftSpec mm input_fn a t := by
  show prepare_sde_f mm input_fn a t = driftSpec mm input_fn a t
  apply List.ext_getElem
  · simp [prepare_sde_f, driftSpec, vAdd, vSub, vMulEl, sMulV, vConj, matVec,
      List.length_zipWith, hA, hK, hu, hB]
  · intro i h1 h2
    have hi : i < a.length := by
      simpa [driftSpec] using h2
    have hiA : i < mm.A.length := by rw [hA]; exact hi
    have hiK : i < mm.A_kerr.length := by rw [hK]; exact hi
    have hiu : i < mm.u_c.length := by rw [hu]; exact hi
    have hiB : i < mm.B_input.length := by rw [hB]; exact hi
    simp [prepare_sde_f, driftSpec, vAdd, vSub, vMulEl, sMulV, vConj, matVec,
      List.getElem_zipWith, List.getElem_map, List.getElem_range,
      List.getD_eq_getElem, hi, hiA, hiK, hiu, hiB]

/-- Sum of the coefficients of all addends with term `t`, with no
truncation: the reference value of a `get_coeffs ... |>.get t` lookup at
`epsilon = 0`. -/
def termCoeffSum (t : Operator) : List Operator → Scalar
  | [] => 0
  | e :: rest =>
    if (coeffTermOf e).2 = t then (coeffTermOf e).1 + termCoeffSum t rest
    else termCoeffSum t rest

theorem keptSum_zero_eq_termCoeffSum (t : Operator) (ops : List Operator) :
    keptSum 0 t ops = termCoeffSum t ops := by
  induction ops with
  | nil => rfl
  | cons e rest ih =>
    rw [keptSum, termCoeffSum]
    simp [dropSmall_zero, ih]

theorem keptSum_append (epsilon : ℚ) (t : Operator)
    (l1 l2 : List Operator) :
    keptSum epsilon t (l1 ++ l2) =
      keptSum epsilon t l1 + keptSum epsilon t l2 := by
  induction l1 with
  | nil => simp [keptSum, Scalar.zero_add_s]
  | cons e rest ih =>
    by_cases h : dropSmall epsilon (coeffTermOf e).1 = false
        ∧ (coeffTermOf e).2 = t
    · simp only [List.cons_append, keptSum, h.1, h.2, and_self, if_true,
        Scalar.add_assoc_s]
      exact congrArg (fun s => (coeffTermOf e).1 + s) ih
    · simp only [List.cons_append, keptSum, h, if_false]
      exact ih

theorem keptSum_of_no_match (epsilon : ℚ) (t : Operator)
    (ops : List Operator) (h : ∀ e ∈ ops, ¬ (coeffTermOf e).2 = t) :
    keptSum epsilon t ops = 0 := by
  induction ops with
  | nil => rfl
  | cons e rest ih =>
    rw [keptSum]
    have he : ¬ (coeffTermOf e).2 = t := h e (by simp)
    simp only [he, and_false, if_false]
    exact ih (fun x hx => h x (by simp [hx]))

theorem keptHas_of_no_match (epsilon : ℚ) (t : Operator)
    (ops : List Operator) (h : ∀ e ∈ ops, ¬ (coeffTermOf e).2 = t) :
    keptHas epsilon t ops = false := by
  induction ops with
  | nil => rfl
  | cons e rest ih =>
    rw [keptHas]
    have he : ¬ (coeffTermOf e).2 = t := h e (by simp)
    simp only [he, and_false, if_false]
    exact ih (fun x hx => h x (by simp [hx]))

theorem keptHas_of_mem (epsilon : ℚ) (ops : List Operator) (e : Operator)
    (hmem : e ∈ ops) (hkept : dropSmall epsilon (coeffTermOf e).1 = false) :
    keptHas epsilon (coeffTermOf e).2 ops = true := by
  induction ops with
  | nil => simp at hmem
  | cons x rest ih =>
    rw [keptHas]
    by_cases hc : dropSmall epsilon (coeffTermOf x).1 = false
        ∧ (coeffTermOf x).2 = (coeffTermOf e).2
    · simp [hc]
    · simp only [hc, if_false]
      rcases List.mem_cons.mp hmem with hx | hx
      · subst hx
        simp [hkept] at hc
      · exact ih hx

theorem filter_single_no_match_rest (t : Operator) (e x : Operator)
    (rest : List Operator)
    (hfil : (x :: rest).filter
        (fun e2 => decide ((coeffTermOf e2).2 = t)) = [e])
    (hx : (coeffTermOf x).2 = t) :
    x = e ∧ ∀ e2 ∈ rest, ¬ (coeffTermOf e2).2 = t := by
  simp only [List.filter_cons, hx, decide_True, if_true] at hfil
  rw [List.cons.injEq] at hfil
  refine ⟨hfil.1, fun e2 he2 hmt => ?_⟩
  have hmem : e2 ∈ rest.filter (fun e3 => decide ((coeffTermOf e3).2 = t)) :=
    List.mem_filter.mpr ⟨he2, by simp [hmt]⟩
  rw [hfil.2] at hmem
  simp at hmem

theorem keptSum_of_filter_single (epsilon : ℚ) (t : Operator)
    (ops : List Operator) (e : Operator)
    (hfil : ops.filter (fun e2 => decide ((coeffTermOf e2).2 = t)) = [e])
    (hkept : dropSmall epsilon (coeffTermOf e).1 = false) :
    keptSum epsilon t ops = (coeffTermOf e).1 := by
  induction ops with
  | nil => simp at hfil
  | cons x rest ih =>
    by_cases hx : (coeffTermOf x).2 = t
    · obtain ⟨hxe, hrest⟩ := filter_single_no_match_rest t e x rest hfil hx
      subst hxe
      rw [keptSum]
      simp only [hkept, hx, and_self, if_true]
      rw [keptSum_of_no_match epsilon t rest hrest, Scalar.add_zero_s]
    · rw [keptSum]
      simp only [hx, and_false, if_false]
      apply ih
      rw [List.filter_cons] at hfil
      simpa [hx] using hfil

theorem keptHas_of_filter_single_dropped (epsilon : ℚ) (t : Operator)
    (ops : List Operator) (e : Operator)
    (hfil : ops.filter (fun e2 => decide ((coeffTermOf e2).2 = t)) = [e])
    (hdrop : dropSmall epsilon (coeffTermOf e).1 = true) :
    keptHas epsilon t ops = false := by
  induction ops with
  | nil => simp at hfil
  | cons x rest ih =>
    by_cases hx : (coeffTermOf x).2 = t
    · obtain ⟨hxe, hrest⟩ := filter_single_no_match_rest t e x rest hfil hx
      subst hxe
      rw [keptHas]
      simp only [hdrop]
      simp only [Bool.true_eq_false, false_and, if_false]
      exact keptHas_of_no_match epsilon t rest hrest
    · rw [keptHas]
      simp only [hx, and_false, if_false]
      apply ih
      rw [List.filter_cons] at hfil
      simpa [hx] using hfil

/-- C4: `get_coeffs` is additive over sums and accumulates repeated terms:
the coefficient of `t` in `get_coeffs (e1 + e2)` at `epsilon = 0` is the
sum of its coefficients in `get_coeffs e1` and `get_coeffs e2`; the value
at any term is the sum of the coefficients of all addends carrying that
term; and unseen keys default to the additive identity. -/
theorem get_coeffs_additive (e1 e2 t : Operator) :
    (get_coeffs (Operator.plus e1 e2) 0).get t =
      (get_coeffs e1 0).get t + (get_coeffs e2 0).get t
    ∧ (get_coeffs (Operator.plus e1 e2) 0).get t =
        termCoeffSum t (operandsOf (Operator.plus e1 e2))
    ∧ ((get_coeffs (Operator.plus e1 e2) 0).hasKey t = false →
        (get_coeffs (Operator.plus e1 e2) 0).get t = 0) := by
  have h1 : operandsOf (Operator.plus e1 e2) =
      operandsOf e1 ++ operandsOf e2 := rfl
  refine ⟨?_, ?_, ?_⟩
  · rw [get_coeffs_get, get_coeffs_get, get_coeffs_get, h1, keptSum_append]
  · rw [get_coeffs_get, keptSum_zero_eq_termCoeffSum]
  · exact fun h => CoeffMap.get_of_hasKey_false _ _ h

/-- C3: with `epsilon > 0`, `get_coeffs` drops exactly the addends whose
coefficient coerces to a complex number of magnitude strictly below
`epsilon` (the dropped term is then absent and maps to the default zero),
an addend whose numeric coefficient has magnitude at least `epsilon` is
present with its exact coefficient (stated for a term carried by a single
addend, the reading under which per-term and per-addend coefficients
agree), and with `epsilon = 0` every addend is retained as an explicit
entry regardless of magnitude, including exact numeric zeros. -/
theorem get_coeffs_truncation (expr : Operator) (epsilon : ℚ) :
    (∀ t e0 c z,
      (operandsOf expr).filter
          (fun e => decide ((coeffTermOf e).2 = t)) = [e0] →
      coeffTermOf e0 = (c, t) →
      Scalar.tryComplex c = some z →
      ((0 < epsilon → z.normSq < epsilon * epsilon →
          (get_coeffs expr epsilon).hasKey t = false
          ∧ (get_coeffs expr epsilon).get t = 0)
        ∧ (¬ (0 < epsilon ∧ z.normSq < epsilon * epsilon) →
          (get_coeffs expr epsilon).hasKey t = true
          ∧ (get_coeffs expr epsilon).get t = c)))
    ∧ (epsilon = 0 → ∀ e ∈ operandsOf expr,
        (get_coeffs expr epsilon).hasKey (coeffTermOf e).2 = true) := by
  constructor
  · intro t e0 c z hfil hct hz
    have hterm : (coeffTermOf e0).2 = t := by rw [hct]
    have hcoeff : (coeffTermOf e0).1 = c := by rw [hct]
    constructor
    · intro hpos hsmall
      have hdrop : dropSmall epsilon (coeffTermOf e0).1 = true := by
        rw [hcoeff]
        unfold dropSmall
        rw [hz]
        simp [hpos, hsmall]
      have hkey : (get_coeffs expr epsilon).hasKey t = false := by
        rw [get_coeffs_hasKey]
        exact keptHas_of_filter_single_dropped epsilon t _ e0 hfil hdrop
      exact ⟨hkey, CoeffMap.get_of_hasKey_false _ _ hkey⟩
    · intro hnot
      have hkept : dropSmall epsilon (coeffTermOf e0).1 = false := by
        rw [hcoeff]
        unfold dropSmall
        rw [hz]
        by_cases hp : 0 < epsilon
        · by_cases hq : z.normSq < epsilon * epsilon
          · exact absurd ⟨hp, hq⟩ hnot
          · simp [hq]
        · simp [hp]
      have hmem : e0 ∈ operandsOf expr :=
        (List.mem_filter.mp (hfil ▸ List.mem_singleton_self e0)).1
      constructor
      · rw [get_coeffs_hasKey, ← hterm]
        exact keptHas_of_mem epsilon _ e0 hmem hkept
      · rw [get_coeffs_get, keptSum_of_filter_single epsilon t _ e0 hfil hkept,
          hcoeff]
  · intro h0 e hmem
    subst h0
    rw [get_coeffs_hasKey]
    exact keptHas_of_mem 0 _ e hmem (dropSmall_zero _)

/-- C5: with any `epsilon`, an addend whose coefficient does not coerce to
a complex number is always kept in the coefficient map (truncation is
numeric-only); the Python coercion failure is swallowed by the
`try/except` block, so `get_coeffs` is total and never raises. -/
theorem get_coeffs_symbolic_kept (expr : Operator) (epsilon : ℚ)
    (e0 : Operator) (hmem : e0 ∈ operandsOf expr)
    (hsym : Scalar.tryComplex (coeffTermOf e0).1 = none) :
    (get_coeffs expr epsilon).hasKey (coeffTermOf e0).2 = true := by
  rw [get_coeffs_hasKey]
  apply keptHas_of_mem epsilon _ e0 hmem
  simp [dropSmall, hsym]

/-- Example term: the annihilation operator of mode 0. -/
def tX : Operator := .destroy 0

/-- Example term: the annihilation operator of mode 1. -/
def tY : Operator := .destroy 1

/-- Example term absent from the example expressions. -/
def tZ : Operator := .destroy 2

/-- Example sum with numeric coefficients 1 and 3. -/
def exC3 : Operator :=
  .plus (.scalarTimes (Scalar.ofCC ⟨1, 0⟩) tX)
    (.scalarTimes (Scalar.ofCC ⟨3, 0⟩) tY)

/-- Example sum with one symbolic and one numeric coefficient. -/
def exSym : Operator :=
  .plus (.scalarTimes (Scalar.ofSym "kappa") tX)
    (.scalarTimes (Scalar.ofCC ⟨2, 0⟩) tY)

/-- Example single-mode, single-port SLH model. -/
def slhW : SLH := ⟨1, [0], [[Scalar.one]], [Operator.destroy 0]⟩

/-- Example engine returning a fixed equation of motion containing a Kerr
term, a linear term and a dynamic-input term. -/
def engineW : Engine :=
  ⟨fun slh _ => slh,
   fun _ _ _ =>
     Operator.plus
       (Operator.plus
         (Operator.scalarTimes (Scalar.ofCC ⟨4, 0⟩) (Operator.kerrTerm 0 0))
         (Operator.scalarTimes (Scalar.ofCC ⟨6, 0⟩) (Operator.destroy 0)))
       (Operator.scalarTimes (Scalar.ofCC ⟨5, 0⟩) (inputSym "in")),
   fun _ _ => []⟩

/-- Example dynamic-input registry with one named port. -/
def dipW : List (Nat × String) := [(0, "in")]

/-- Example numeric model matrices for a two-mode system. -/
def mmW : NumericModelMatrices :=
  ⟨[[⟨1, 0⟩, ⟨2, 0⟩], [⟨0, 1⟩, ⟨3, 0⟩]],
   [[⟨1, 0⟩], [⟨0, 0⟩]],
   [[⟨1, 0⟩, ⟨0, 0⟩]],
   [[⟨1, 0⟩]],
   [[⟨2, 0⟩, ⟨0, 0⟩], [⟨0, 0⟩, ⟨1, 0⟩]],
   [[⟨1, 0⟩], [⟨0, 2⟩]],
   [[⟨0, 0⟩]],
   [⟨1, 0⟩, ⟨0, 1⟩],
   [⟨0, 0⟩]⟩

/-- Example state vector. -/
def aW : CVec := [⟨1, 0⟩, ⟨0, 1⟩]

/-- Example drive function. -/
def inFnW : ℚ → CVec := fun _ => [⟨1, 0⟩]

/-- Witness for C1 at the two-mode example. -/
theorem prepare_sde_drift_formula_witness :
    (prepare_sde mmW inFnW).1 aW 0 = driftSpec mmW inFnW aW 0 :=
  prepare_sde_drift_formula mmW inFnW aW 0 (by decide) (by decide)
    (by decide) (by decide)

/-- Witness for C2 at the single-mode example model. -/
theorem model_matrices_A_kerr_entry_witness :
    ((model_matrices engineW slhW dipW true 0).A_kerr.getD 0 []).getD 0 0 =
      ((get_coeffs ((eomsOf engineW slhW dipW).getD 0 .zeroOperator) 0).get
        (Operator.kerrTerm ((modesOf slhW).getD 0 0)
          ((modesOf slhW).getD 0 0))).divNeg2I :=
  (model_matrices_A_kerr_entry engineW slhW dipW true 0 0 0 (by decide)
    (by decide)).1

/-- Witness for C3: at `epsilon = 2` the coefficient-1 addend is dropped
and maps to the default zero, the coefficient-3 addend is present with its
exact coefficient, and at `epsilon = 0` every addend is a key. -/
theorem get_coeffs_truncation_witness :
    ((get_coeffs exC3 2).hasKey tX = false ∧ (get_coeffs exC3 2).get tX = 0)
    ∧ ((get_coeffs exC3 2).hasKey tY = true
      ∧ (get_coeffs exC3 2).get tY = Scalar.ofCC ⟨3, 0⟩)
    ∧ (get_coeffs exC3 0).hasKey tX = true :=
  ⟨((get_coeffs_truncation exC3 2).1 tX
      (.scalarTimes (Scalar.ofCC ⟨1, 0⟩) tX) (Scalar.ofCC ⟨1, 0⟩) ⟨1, 0⟩
      (by decide) rfl rfl).1 (by norm_num) (by norm_num [CC.normSq]),
   ((get_coeffs_truncation exC3 2).1 tY
      (.scalarTimes (Scalar.ofCC ⟨3, 0⟩) tY) (Scalar.ofCC ⟨3, 0⟩) ⟨3, 0⟩
      (by decide) rfl rfl).2 (by norm_num [CC.normSq]),
   (get_coeffs_truncation exC3 0).2 rfl
      (.scalarTimes (Scalar.ofCC ⟨1, 0⟩) tX) (by decide)⟩

/-- Witness for C4 at the two-addend example, including the default-zero
clause at an unseen key. -/
theorem get_coeffs_additive_witness :
    ((get_coeffs exC3 0).get tZ =
      (get_coeffs (.scalarTimes (Scalar.ofCC ⟨1, 0⟩) tX) 0).get tZ +
        (get_coeffs (.scalarTimes (Scalar.ofCC ⟨3, 0⟩) tY) 0).get tZ)
    ∧ (get_coeffs exC3 0).get tZ = 0 :=
  ⟨(get_coeffs_additive (.scalarTimes (Scalar.ofCC ⟨1, 0⟩) tX)
      (.scalarTimes (Scalar.ofCC ⟨3, 0⟩) tY) tZ).1,
   (get_coeffs_additive (.scalarTimes (Scalar.ofCC ⟨1, 0⟩) tX)
      (.scalarTimes (Scalar.ofCC ⟨3, 0⟩) tY) tZ).2.2 (by decide)⟩

/-- Witness for C5: the symbolically weighted addend survives a large
truncation threshold. -/
theorem get_coeffs_symbolic_kept_witness :
    (get_coeffs exSym 5).hasKey tX = true :=
  get_coeffs_symbolic_kept exSym 5
    (.scalarTimes (Scalar.ofSym "kappa") tX) (by decide) rfl

/-- Witness for C8 at the single-mode example model, with the empty
registry clause at the empty input list. -/
theorem model_matrices_B_input_entry_witness :
    (((model_matrices engineW slhW dipW true 0).B_input.getD 0 []).getD 0 0 =
      (get_coeffs ((eomsOf engineW slhW dipW).getD 0 .zeroOperator) 0).get
        ((inputsFor dipW).getD 0 .zeroOperator))
    ∧ (model_matrices engineW slhW [] true 0).B_input.map List.length =
        List.replicate (modesOf slhW).length 0 :=
  ⟨(model_matrices_B_input_entry engineW slhW dipW true 0).1 0 0 (by decide)
      (by decide),
   (model_matrices_B_input_entry engineW slhW [] true 0).2 rfl⟩

end QNET
